import Mathlib

/-!
Shallow embedding of the `dynarray` / `slice` / `cstring` / `fmt` C library.

Modelling conventions:
* `size_t` is 64 bits (LP64 platform, the target of this code); arithmetic
  that can wrap is taken `% size_t_mod`.  `int` is 32 bits.
* Pointers into a buffer are modelled as byte offsets (`Nat`); `NULL` /
  the PANIC path become `Option`/`none`.
* A heap buffer is a `List Nat` of bytes whose length is the allocation
  size; bytes `malloc`/`realloc` hands out beyond the preserved prefix are
  uninitialized in C and are modelled as `0` — no theorem below observes
  them before they are written.
-/

def size_t_mod : Nat := 2 ^ 64

/-- `struct type { size_t size; }` — the element-size descriptor. -/
structure type where
  size : Nat
deriving DecidableEq, Repr

/-- `type_new` from dynarray.c. -/
def type_new (size : Nat) : type := ⟨size⟩

/-- `struct dynarray { void *data; size_t cap; size_t len; }`.
`data` is the backing buffer: a byte list whose length is the allocation
size (`cap` bytes once allocated). -/
structure dynarray where
  data : List Nat
  cap : Nat
  len : Nat
deriving DecidableEq, Repr

/-- `dynarray_new()` — empty array, no allocation. -/
def dynarray_new : dynarray := ⟨[], 0, 0⟩

/-- `DYN_ARRAY_MIN_CAP` from dynarray.c. -/
def DYN_ARRAY_MIN_CAP : Nat := 4

/-- `realloc(data, newcap)` (or `malloc` from an empty buffer): the first
`min (len data) newcap` bytes are preserved, the rest of the new block is
uninitialized (modelled as `0`). -/
def realloc_bytes (data : List Nat) (newcap : Nat) : List Nat :=
  (data ++ List.replicate newcap 0).take newcap

/-- `dynarray_resize` — doubling growth (`cap * 2`, size_t arithmetic),
or `DYN_ARRAY_MIN_CAP * size` from capacity 0.  The PANIC-on-OOM branch
is the fatal exit; the model reflects the successful execution. -/
def dynarray_resize (self : dynarray) (val_type : type) : dynarray :=
  let newcap :=
    if self.cap > 0 then (self.cap * 2) % size_t_mod
    else (DYN_ARRAY_MIN_CAP * val_type.size) % size_t_mod
  { data := realloc_bytes self.data newcap, cap := newcap, len := self.len }

/-- Structurally recursive base-2 logarithm (`Nat.log2` with explicit
fuel, so that it reduces in the kernel); `log2_fuel f n = Nat.log2 n`
whenever `n < 2 ^ f`. -/
def log2_fuel : Nat → Nat → Nat
  | 0, _ => 0
  | fuel + 1, n => if 2 ≤ n then log2_fuel fuel (n / 2) + 1 else 0

/-- `clzz` — count of leading zero bits of a `size_t` (the `__builtin_clzl`
branch; undefined at 0, which no claim exercises).  For `1 ≤ n < 2^64` the
number of leading zeros is `64 - (log2 n + 1)`. -/
def clzz (n : Nat) : Nat := 64 - (log2_fuel 64 n + 1)

/-- `minpow2` — `mask = (1 << 63) >> clzz(n); if (mask == n) return mask;
return mask << 1;` (the shift result is a `size_t`). -/
def minpow2 (n : Nat) : Nat :=
  let leading_zeros := clzz n
  let mask := ((1 : Nat) <<< 63) >>> leading_zeros
  if mask = n then mask else (mask <<< 1) % size_t_mod

/-- `dynarray_resize_to_fit` — grow to `minpow2(cap + additional)`
(size_t addition). -/
def dynarray_resize_to_fit (self : dynarray) (additional : Nat) : dynarray :=
  let newcap := minpow2 ((self.cap + additional) % size_t_mod)
  { data := realloc_bytes self.data newcap, cap := newcap, len := self.len }

/-- `dynarray_next_unchecked` — returns the pointer `dynarray_end(self)`
(byte offset `len`) and advances `len` by the element size. -/
def dynarray_next_unchecked (self : dynarray) (val_type : type) : Nat × dynarray :=
  (self.len, { self with len := (self.len + val_type.size) % size_t_mod })

/-- `memcpy` of `buf` into `data` at byte offset `off` (in-place overwrite;
for an in-bounds copy the buffer length is unchanged). -/
def write_bytes (data : List Nat) (off : Nat) (buf : List Nat) : List Nat :=
  data.take off ++ buf ++ data.drop (off + buf.length)

/-- `dynarray_extend_unchecked` — `memcpy` at `dynarray_end`, then
`len += buf_size`. -/
def dynarray_extend_unchecked (self : dynarray) (buf : List Nat) : dynarray :=
  { self with
    data := write_bytes self.data self.len buf
    len := (self.len + buf.length) % size_t_mod }

/-- `dynarray_extend` — `remaining_capacity = cap - len` (size_t
subtraction); grow with `dynarray_resize_to_fit` only when
`remaining_capacity < buf_size`. -/
def dynarray_extend (self : dynarray) (buf : List Nat) : dynarray :=
  let buf_size := buf.length
  let remaining_capacity := (size_t_mod + self.cap - self.len) % size_t_mod
  let self1 :=
    if remaining_capacity < buf_size then dynarray_resize_to_fit self buf_size
    else self
  dynarray_extend_unchecked self1 buf

/-- `dynarray_next` — grow (doubling) when `cap <= len`, then claim the
next slot; returns the pointer to the claimed slot and the new state. -/
def dynarray_next (self : dynarray) (val_type : type) : Nat × dynarray :=
  let self1 := if self.cap ≤ self.len then dynarray_resize self val_type else self
  dynarray_next_unchecked self1 val_type

/-- `dynarray_pop` from include/dynarray.c — `if (len > 0)` decrement `len`
by the element size (size_t subtraction) and return the pointer to the
removed element; otherwise return `NULL` (`none`). -/
def dynarray_pop (self : dynarray) (val_type : type) : Option Nat × dynarray :=
  if self.len > 0 then
    let newlen := (size_t_mod + self.len - val_type.size) % size_t_mod
    (some newlen, { self with len := newlen })
  else
    (none, self)

/-- `dynarray_pop` as duplicated in src/main.c — identical except the
guard reads `if (self->len >= 0)`, which is vacuously true for a
`size_t`. -/
def dynarray_pop_main (self : dynarray) (val_type : type) : Option Nat × dynarray :=
  if self.len ≥ 0 then
    let newlen := (size_t_mod + self.len - val_type.size) % size_t_mod
    (some newlen, { self with len := newlen })
  else
    (none, self)

/-- `dynarray_length` — `len / size` (the stray debugging `printf` in
include/dynarray.c does not affect the returned value). -/
def dynarray_length (self : dynarray) (val_type : type) : Nat :=
  self.len / val_type.size

/-- `dynarray_capacity` — `cap / size`. -/
def dynarray_capacity (self : dynarray) (val_type : type) : Nat :=
  self.cap / val_type.size

/-- `dynarray_get` — bounds-checked access; the PANIC branch is `none`,
the success branch returns the pointer at byte offset `index * size`. -/
def dynarray_get (self : dynarray) (val_type : type) (index : Nat) : Option Nat :=
  if index < dynarray_length self val_type then some (index * val_type.size)
  else none

/-- The C idiom `*(T *)dynarray_next(self, t) = v`: claim the next slot
and write the `v` bytes through the returned pointer. -/
def dynarray_push_val (self : dynarray) (val_type : type) (v : List Nat) : dynarray :=
  let r := dynarray_next self val_type
  { r.2 with data := write_bytes r.2.data r.1 v }

/-- `slice` — a non-owning `[begin, end)` byte range; modelled by the
bytes it denotes (`length_bytes = bytes.length = end - begin`).  Named
`Slice` because `slice` is taken by a Mathlib tactic. -/
structure Slice where
  bytes : List Nat
deriving DecidableEq, Repr

/-- `slice_length` — `(end - begin) / size`. -/
def slice_length (self : Slice) (val_type : type) : Nat :=
  self.bytes.length / val_type.size

/-- `slice_get` — bounds-checked access; PANIC is `none`, success returns
the pointer at byte offset `index * size` from `begin`. -/
def slice_get (self : Slice) (val_type : type) (index : Nat) : Option Nat :=
  if index < slice_length self val_type then some (index * val_type.size)
  else none

/-- C `memcmp(p, q, n)` over byte buffers: `0` if the first `n` bytes
agree, otherwise the (sign-bearing) difference of the first differing
byte pair, which is what the standard guarantees up to sign and what
common implementations return. -/
def memcmp : List Nat → List Nat → Nat → Int
  | _, _, 0 => 0
  | [], _, _ + 1 => 0
  | _, [], _ + 1 => 0
  | a :: as, b :: bs, n + 1 => if a = b then memcmp as bs n else (a : Int) - (b : Int)

/-- Conversion of a `size_t` value to `int` (32-bit, twos complement
wrap — the implementation-defined behavior of every mainstream
compiler), as happens in `return len_ord;` of `slice_memcmp`. -/
def int_of_size_t (v : Nat) : Int :=
  let u : Nat := v % 2 ^ 32
  if u < 2 ^ 31 then (u : Int) else (u : Int) - 2 ^ 32

/-- `slice_memcmp` — `len_ord = rhs_len - lhs_len` (size_t subtraction);
if nonzero it is returned (truncated to `int`), otherwise the byte
contents are compared with `memcmp` over `lhs_len` bytes. -/
def slice_memcmp (lhs rhs : Slice) : Int :=
  let lhs_len := lhs.bytes.length
  let rhs_len := rhs.bytes.length
  let len_ord := (size_t_mod + rhs_len - lhs_len) % size_t_mod
  if len_ord ≠ 0 then int_of_size_t len_ord
  else memcmp lhs.bytes rhs.bytes lhs_len

/-- `slice_memeq` — `slice_memcmp(lhs, rhs) == 0`. -/
def slice_memeq (lhs rhs : Slice) : Bool :=
  slice_memcmp lhs rhs = 0

/-- `struct cstring { struct dynarray buf; }` — UTF-8 string builder over
a byte (`uint8_t`) dynarray. -/
structure cstring where
  buf : dynarray
deriving DecidableEq, Repr

/-- The occupied bytes of the buffer of the builder (`[0, len)`), i.e. the
logical content plus the trailing terminator byte. -/
def cstring_content (self : cstring) : List Nat :=
  self.buf.data.take self.buf.len

/-- `*(uint8_t *)dynarray_next(&self->buf, TYPEINFO(uint8_t)) = b` — the
push-one-byte idiom used throughout cstring.c. -/
def dynarray_push_byte (a : dynarray) (b : Nat) : dynarray :=
  dynarray_push_val a (type_new 1) [b]

/-- `encode_utf8` — UTF-8 encoding of `codepoint_as_uint32(ch)`; each
emitted byte is stored in a `uint8_t` (`% 256`). -/
def encode_utf8 (ch : Nat) : List Nat :=
  let i := ch % 2 ^ 32
  if i < 0x80 then [i]
  else if i < 0x800 then
    [(0xc0 ||| (i >>> 6)) % 256, (0x80 ||| (i &&& 0x3f)) % 256]
  else if i < 0x10000 then
    [(0xe0 ||| (i >>> 12)) % 256, (0x80 ||| ((i >>> 6) &&& 0x3f)) % 256,
     (0x80 ||| (i &&& 0x3f)) % 256]
  else
    [(0xf0 ||| (i >>> 18)) % 256, (0x80 ||| ((i >>> 12) &&& 0x3f)) % 256,
     (0x80 ||| ((i >>> 6) &&& 0x3f)) % 256, (0x80 ||| (i &&& 0x3f)) % 256]

/-- `cstring_extend` — pop the trailing NUL, bulk-append the byte range,
re-push a NUL. -/
def cstring_extend (self : cstring) (buf : List Nat) : cstring :=
  let b1 := (dynarray_pop self.buf (type_new 1)).2
  let b2 := dynarray_extend b1 buf
  ⟨dynarray_push_byte b2 0⟩

/-- `cstring_extend_cstr` — `strlen` reads the C string up to its first
NUL byte, then `cstring_extend` appends that range. -/
def cstring_extend_cstr (self : cstring) (cstr : List Nat) : cstring :=
  cstring_extend self (cstr.takeWhile (fun b => b != 0))

/-- `cstring_is` — build from an existing C string. -/
def cstring_is (cstr : List Nat) : cstring :=
  cstring_extend_cstr ⟨dynarray_new⟩ cstr

/-- `cstring_new` — `cstring_is("")`. -/
def cstring_new : cstring := cstring_is []

/-- `cstring_push` — encode the codepoint, pop the trailing NUL, push the
encoded bytes one at a time, re-push a NUL. -/
def cstring_push (self : cstring) (ch : Nat) : cstring :=
  let out := encode_utf8 ch
  let b1 := (dynarray_pop self.buf (type_new 1)).2
  let b2 := out.foldl dynarray_push_byte b1
  ⟨dynarray_push_byte b2 0⟩

/-- ASCII bytes of a Lean string literal, for writing the C string
literals that appear in fmt.c and the tests. -/
def str_bytes (s : String) : List Nat := s.toList.map Char.toNat

/-- Decimal digits (ASCII) of a natural number, with structural fuel;
`fuel ≥ n` always suffices. -/
def nat_decimal_fuel : Nat → Nat → List Nat
  | 0, _ => []
  | fuel + 1, n =>
    if n < 10 then [48 + n]
    else nat_decimal_fuel fuel (n / 10) ++ [48 + n % 10]

/-- The bytes `snprintf("%d", value)` produces for an in-range `int`. -/
def int_decimal_bytes (value : Int) : List Nat :=
  if value < 0 then 45 :: nat_decimal_fuel (value.natAbs + 1) value.natAbs
  else nat_decimal_fuel (value.toNat + 1) value.toNat

/-- `fmt_int` — render the decimal text of a 32-bit `int` into the
builder via `cstring_extend` (the `DEFINE_FMT_INTEGRAL` expansion). -/
def fmt_int (f : cstring) (value : Int) : cstring :=
  cstring_extend f (int_decimal_bytes value)

/-- Reading a 4-byte little-endian twos-complement `int` from a buffer
(the `*value` dereference inside `fmt_int` when used as a `formatter`). -/
def int_of_le_bytes_4 (bytes : List Nat) : Int :=
  let u : Nat := bytes.getD 0 0 + 256 * bytes.getD 1 0 + 65536 * bytes.getD 2 0 +
    16777216 * bytes.getD 3 0
  let m : Nat := u % 2 ^ 32
  if m < 2 ^ 31 then (m : Int) else (m : Int) - 2 ^ 32

/-- `fmt_int` used through the type-erased `formatter` callback: the
callback receives the pointer to one element; the model hands it the
bytes of the element. -/
def fmt_int_formatter (f : cstring) (bytes : List Nat) : cstring :=
  fmt_int f (int_of_le_bytes_4 bytes)

/-- The `for (; it != last; it += ty.size)` loop of `fmt_dynarray`:
format the element at byte offset `it`, append `", "`, advance.  The C
loop relies on `it` hitting `last` exactly; the model stops as soon as
`it` reaches or passes `last` (identical behavior on every aligned
input, and a terminating rendering of the otherwise-unbounded walk).
The explicit fuel makes the recursion structural; since each step
advances `it` by `s ≥ 1`, `last + 1` units of fuel always suffice. -/
def fmt_dynarray_loop (cb : cstring → List Nat → cstring) (data : List Nat)
    (s : Nat) : Nat → cstring → Nat → Nat → cstring
  | 0, f, _, _ => f
  | fuel + 1, f, it, last =>
    if it < last ∧ 0 < s then
      let f1 := cb f ((data.drop it).take s)
      let f2 := cstring_extend_cstr f1 (str_bytes ", ")
      fmt_dynarray_loop cb data s fuel f2 (it + s) last
    else f

/-- `fmt_dynarray` — `"{ "`, the comma-separated elements (formatter
callback on each element, `last = end - ty.size`), then `" }"`; the
`length == 0` early append of `" }"` is kept as in the source. -/
def fmt_dynarray (f : cstring) (arr : dynarray) (ty : type)
    (cb : cstring → List Nat → cstring) : cstring :=
  let f1 := cstring_extend_cstr f (str_bytes "\x7b ")
  let f2 := if dynarray_length arr ty = 0 then cstring_extend_cstr f1 (str_bytes " \x7d")
    else f1
  let last := arr.len - ty.size
  let f3 := fmt_dynarray_loop cb arr.data ty.size (last + 1) f2 0 last
  let f4 := cb f3 ((arr.data.drop last).take ty.size)
  cstring_extend_cstr f4 (str_bytes " \x7d")

/-! ## Reachability relations and invariant definitions -/

/-- The dynarray states reachable from `dynarray_new` by pushes
(`dynarray_next`) with a fixed descriptor of size `s`.  The capacity
bound on each step is the no-`size_t`-overflow side condition: a real
execution cannot reach a `2^62`-byte allocation, and past it the
doubling would wrap. -/
inductive dynarray_push_reachable (s : Nat) : dynarray → Prop where
  | new : dynarray_push_reachable s dynarray_new
  | next (a : dynarray) (h : dynarray_push_reachable s a) (hcap : a.cap ≤ 2 ^ 62) :
      dynarray_push_reachable s (dynarray_next a (type_new s)).2

/-- The dynarray states reachable from `dynarray_new` by any sequence of
pushes, extends and pops with one fixed descriptor size `s`.  Extends
append whole elements (`s ∣ buf.length`, the data-model rule that the
occupied bytes are whole elements of the descriptor size); the `2^62`
bounds are the no-`size_t`-overflow side conditions. -/
inductive dynarray_reachable (s : Nat) : dynarray → Prop where
  | new : dynarray_reachable s dynarray_new
  | next (a : dynarray) (h : dynarray_reachable s a) (hcap : a.cap ≤ 2 ^ 62) :
      dynarray_reachable s (dynarray_next a (type_new s)).2
  | ext (a : dynarray) (buf : List Nat) (h : dynarray_reachable s a)
      (hdvd : s ∣ buf.length) (hsz : a.cap + buf.length ≤ 2 ^ 62) :
      dynarray_reachable s (dynarray_extend a buf)
  | pop (a : dynarray) (h : dynarray_reachable s a) :
      dynarray_reachable s (dynarray_pop a (type_new s)).2

/-- The inductive invariant behind C1: length below capacity, both
multiples of the element size, capacity bounded. -/
def c1_invariant (s : Nat) (a : dynarray) : Prop :=
  a.len ≤ a.cap ∧ s ∣ a.len ∧ s ∣ a.cap ∧ a.cap ≤ 2 ^ 63

/-- The state after `dynarray_new`, a 6-byte `dynarray_extend` (two
elements of size 3) and one `dynarray_next` of size 3. -/
def c1_bad_state : dynarray :=
  (dynarray_next (dynarray_extend dynarray_new [1, 1, 1, 1, 1, 1]) (type_new 3)).2

/-- Well-formedness of the backing array of a `cstring`: the occupied bytes
fit in the buffer and the buffer has exactly `cap` bytes. -/
def cstring_ok (s : cstring) : Prop :=
  s.buf.len ≤ s.buf.cap ∧ s.buf.data.length = s.buf.cap

/-- The builders reachable by any sequence of the five cstring
operations.  The size bounds are the no-`size_t`-overflow side
conditions; `push` requires a codepoint whose `uint32` value is nonzero
and `ext` a NUL-free byte range — the conditions the counterexample
shows are necessary. -/
inductive cstring_reachable : cstring → Prop where
  | new : cstring_reachable cstring_new
  | is (cstr : List Nat) (hsz : cstr.length ≤ 2 ^ 56) : cstring_reachable (cstring_is cstr)
  | push (s : cstring) (ch : Nat) (h : cstring_reachable s)
      (hch : ch % 2 ^ 32 ≠ 0) (hcap : s.buf.cap ≤ 2 ^ 56) :
      cstring_reachable (cstring_push s ch)
  | ext (s : cstring) (buf : List Nat) (h : cstring_reachable s) (hbuf : 0 ∉ buf)
      (hsz : s.buf.cap + buf.length ≤ 2 ^ 62) :
      cstring_reachable (cstring_extend s buf)
  | ext_cstr (s : cstring) (cstr : List Nat) (h : cstring_reachable s)
      (hsz : s.buf.cap + cstr.length ≤ 2 ^ 62) :
      cstring_reachable (cstring_extend_cstr s cstr)

/-! ## Arithmetic facts about `log2_fuel` and `minpow2` -/

theorem minpow2_eq (n : Nat) :
    minpow2 n =
      if ((1 : Nat) <<< 63) >>> clzz n = n then ((1 : Nat) <<< 63) >>> clzz n
      else ((((1 : Nat) <<< 63) >>> clzz n) <<< 1) % size_t_mod := rfl

theorem log2_fuel_spec (fuel : Nat) :
    ∀ n : Nat, 1 ≤ n → n < 2 ^ fuel →
      2 ^ log2_fuel fuel n ≤ n ∧ n < 2 ^ (log2_fuel fuel n + 1) := by
  induction fuel with
  | zero =>
    intro n h1 h2
    simp [pow_zero] at h2
    omega
  | succ fuel ih =>
    intro n h1 h2
    rw [pow_succ] at h2
    by_cases h : 2 ≤ n
    · have hdiv1 : 1 ≤ n / 2 := by omega
      have hdiv2 : n / 2 < 2 ^ fuel := by omega
      obtain ⟨ha, hb⟩ := ih (n / 2) hdiv1 hdiv2
      rw [pow_succ] at hb
      have heq : log2_fuel (fuel + 1) n = log2_fuel fuel (n / 2) + 1 := by
        simp [log2_fuel, h]
      rw [heq, pow_succ, pow_succ, pow_succ]
      omega
    · have hn : n = 1 := by omega
      subst hn
      have heq : log2_fuel (fuel + 1) 1 = 0 := by norm_num [log2_fuel]
      rw [heq]
      norm_num

theorem minpow2_spec (n : Nat) (h1 : 1 ≤ n) (h2 : n ≤ 2 ^ 63) :
    n ≤ minpow2 n ∧ (∃ k, minpow2 n = 2 ^ k) ∧ ∀ m, n ≤ 2 ^ m → minpow2 n ≤ 2 ^ m := by
  have hn64 : n < 2 ^ 64 := lt_of_le_of_lt h2 (by norm_num)
  obtain ⟨ha, hb⟩ := log2_fuel_spec 64 n h1 hn64
  set L := log2_fuel 64 n with hL
  have hL63 : L ≤ 63 := by
    by_contra hc
    have h64L : (64 : Nat) ≤ L := by omega
    have hcmp : (2 : Nat) ^ 64 ≤ 2 ^ L := Nat.pow_le_pow_right (by norm_num) h64L
    omega
  have h1s : (1 : Nat) <<< 63 = 2 ^ 63 := by rw [Nat.shiftLeft_eq, one_mul]
  have hclzz : clzz n = 63 - L := by
    simp only [clzz, ← hL]
    omega
  have hmask : ((1 : Nat) <<< 63) >>> clzz n = 2 ^ L := by
    rw [h1s, hclzz, Nat.shiftRight_eq_div_pow, Nat.pow_div (by omega) (by norm_num)]
    congr 1
    omega
  by_cases hcase : ((1 : Nat) <<< 63) >>> clzz n = n
  · have hmp : minpow2 n = n := by rw [minpow2_eq, if_pos hcase, hcase]
    have hnL : n = 2 ^ L := by rw [← hcase, hmask]
    rw [hmp]
    exact ⟨le_refl n, ⟨L, hnL⟩, fun m hm => hm⟩
  · have hne : n ≠ 2 ^ L := by
      rw [hmask] at hcase
      exact fun hq => hcase hq.symm
    have hL62 : L ≤ 62 := by
      by_contra hc
      have hL63e : L = 63 := by omega
      apply hne
      rw [hL63e] at ha ⊢
      omega
    have hlt64 : 2 ^ (L + 1) < 2 ^ 64 := Nat.pow_lt_pow_right (by norm_num) (by omega)
    have hmp : minpow2 n = 2 ^ (L + 1) := by
      rw [minpow2_eq, if_neg hcase, hmask, Nat.shiftLeft_eq, pow_one, ← pow_succ]
      exact Nat.mod_eq_of_lt hlt64
    rw [hmp]
    refine ⟨le_of_lt hb, ⟨L + 1, rfl⟩, fun m hm => ?_⟩
    have hLm : L + 1 ≤ m := by
      by_contra hc
      have hmL : m ≤ L := by omega
      have hpm : (2 : Nat) ^ m ≤ 2 ^ L := Nat.pow_le_pow_right (by norm_num) hmL
      omega
    exact Nat.pow_le_pow_right (by norm_num) hLm

/-- C10: for every `n` with `1 ≤ n ≤ 2^63` (`2^(w-1)` for the 64-bit
`size_t`), `minpow2 n` — computed through `clzz`, the count of leading
zero bits — is the least power of two that is greater than or equal to
`n`. -/
theorem c10_minpow2_least_pow2 (n : Nat) (h1 : 1 ≤ n) (h2 : n ≤ 2 ^ 63) :
    (∃ k, minpow2 n = 2 ^ k) ∧ n ≤ minpow2 n ∧ ∀ m, n ≤ 2 ^ m → minpow2 n ≤ 2 ^ m := by
  obtain ⟨ha, hb, hc⟩ := minpow2_spec n h1 h2
  exact ⟨hb, ha, hc⟩

/-- Witness for C10 at `n = 5`: `minpow2 5` is the least power of two
at least `5` (namely `8`). -/
theorem c10_minpow2_least_pow2_witness :
    (∃ k, minpow2 5 = 2 ^ k) ∧ 5 ≤ minpow2 5 ∧ ∀ m, 5 ≤ 2 ^ m → minpow2 5 ≤ 2 ^ m :=
  c10_minpow2_least_pow2 5 (by decide) (by norm_num)

/-! ## Unfolding equations for the dynarray operations -/

theorem dynarray_resize_cap (a : dynarray) (t : type) :
    (dynarray_resize a t).cap =
      if 0 < a.cap then (a.cap * 2) % size_t_mod
      else (DYN_ARRAY_MIN_CAP * t.size) % size_t_mod := rfl

theorem dynarray_resize_len (a : dynarray) (t : type) :
    (dynarray_resize a t).len = a.len := rfl

theorem dynarray_resize_data (a : dynarray) (t : type) :
    (dynarray_resize a t).data = realloc_bytes a.data (dynarray_resize a t).cap := rfl

theorem dynarray_resize_to_fit_cap (a : dynarray) (additional : Nat) :
    (dynarray_resize_to_fit a additional).cap =
      minpow2 ((a.cap + additional) % size_t_mod) := rfl

theorem dynarray_resize_to_fit_len (a : dynarray) (additional : Nat) :
    (dynarray_resize_to_fit a additional).len = a.len := rfl

theorem dynarray_resize_to_fit_data (a : dynarray) (additional : Nat) :
    (dynarray_resize_to_fit a additional).data =
      realloc_bytes a.data (dynarray_resize_to_fit a additional).cap := rfl

theorem dynarray_next_eq (a : dynarray) (t : type) :
    dynarray_next a t =
      dynarray_next_unchecked (if a.cap ≤ a.len then dynarray_resize a t else a) t := rfl

theorem dynarray_extend_eq (a : dynarray) (buf : List Nat) :
    dynarray_extend a buf =
      dynarray_extend_unchecked
        (if (size_t_mod + a.cap - a.len) % size_t_mod < buf.length
         then dynarray_resize_to_fit a buf.length else a) buf := rfl

theorem dynarray_extend_unchecked_cap (a : dynarray) (buf : List Nat) :
    (dynarray_extend_unchecked a buf).cap = a.cap := rfl

theorem dynarray_extend_unchecked_len (a : dynarray) (buf : List Nat) :
    (dynarray_extend_unchecked a buf).len = (a.len + buf.length) % size_t_mod := rfl

theorem dynarray_extend_unchecked_data (a : dynarray) (buf : List Nat) :
    (dynarray_extend_unchecked a buf).data = write_bytes a.data a.len buf := rfl

theorem dynarray_next_unchecked_fst (a : dynarray) (t : type) :
    (dynarray_next_unchecked a t).1 = a.len := rfl

theorem dynarray_next_unchecked_snd_len (a : dynarray) (t : type) :
    (dynarray_next_unchecked a t).2.len = (a.len + t.size) % size_t_mod := rfl

theorem dynarray_next_unchecked_snd_cap (a : dynarray) (t : type) :
    (dynarray_next_unchecked a t).2.cap = a.cap := rfl

theorem dynarray_next_unchecked_snd_data (a : dynarray) (t : type) :
    (dynarray_next_unchecked a t).2.data = a.data := rfl

theorem dynarray_pop_pos (a : dynarray) (t : type) (h : 0 < a.len) :
    dynarray_pop a t =
      (some ((size_t_mod + a.len - t.size) % size_t_mod),
       { a with len := (size_t_mod + a.len - t.size) % size_t_mod }) := by
  rw [dynarray_pop, if_pos h]

theorem dynarray_pop_zero (a : dynarray) (t : type) (h : a.len = 0) :
    dynarray_pop a t = (none, a) := by
  rw [dynarray_pop, if_neg (by omega)]

/-! ## C3: capacity and length behavior of `dynarray_extend` -/

/-- C3: on an array with `len ≤ cap ≤ 2^63 - d`, extending by a `d`-byte
range adds `d` to the length; the capacity is unchanged when the
remaining capacity `cap - len` is at least `d`, and otherwise becomes the
smallest power of two that is `≥ cap + d`. -/
theorem c3_extend_characterization (a : dynarray) (buf : List Nat)
    (h1 : a.len ≤ a.cap) (h2 : a.cap + buf.length ≤ 2 ^ 63) :
    (dynarray_extend a buf).len = a.len + buf.length ∧
    (buf.length ≤ a.cap - a.len → (dynarray_extend a buf).cap = a.cap) ∧
    (a.cap - a.len < buf.length →
      a.cap + buf.length ≤ (dynarray_extend a buf).cap ∧
      (∃ k, (dynarray_extend a buf).cap = 2 ^ k) ∧
      ∀ m, a.cap + buf.length ≤ 2 ^ m → (dynarray_extend a buf).cap ≤ 2 ^ m) := by
  have hstm : size_t_mod = 2 ^ 64 := rfl
  have hrem : (size_t_mod + a.cap - a.len) % size_t_mod = a.cap - a.len := by
    rw [hstm]
    omega
  rw [dynarray_extend_eq, hrem]
  by_cases hg : a.cap - a.len < buf.length
  · rw [if_pos hg]
    have hsum : (a.cap + buf.length) % size_t_mod = a.cap + buf.length := by
      rw [hstm]
      omega
    have hpos : 1 ≤ a.cap + buf.length := by omega
    obtain ⟨hge, hpow, hmin⟩ := minpow2_spec (a.cap + buf.length) hpos h2
    have hcap : (dynarray_resize_to_fit a buf.length).cap = minpow2 (a.cap + buf.length) := by
      rw [dynarray_resize_to_fit_cap, hsum]
    have hlenmod : (a.len + buf.length) % size_t_mod = a.len + buf.length := by
      rw [hstm]
      omega
    refine ⟨?_, fun hc => absurd hc (by omega), fun _ => ⟨?_, ?_, ?_⟩⟩
    · rw [dynarray_extend_unchecked_len, dynarray_resize_to_fit_len, hlenmod]
    · rw [dynarray_extend_unchecked_cap, hcap]
      exact hge
    · rw [dynarray_extend_unchecked_cap, hcap]
      exact hpow
    · intro m hm
      rw [dynarray_extend_unchecked_cap, hcap]
      exact hmin m hm
  · rw [if_neg hg]
    have hlenmod : (a.len + buf.length) % size_t_mod = a.len + buf.length := by
      rw [hstm]
      omega
    refine ⟨?_, fun _ => ?_, fun hc => absurd hc hg⟩
    · rw [dynarray_extend_unchecked_len, hlenmod]
    · rw [dynarray_extend_unchecked_cap]

/-- Witness for C3: extending a fresh array by 6 bytes grows the capacity
to `8 = minpow2 6` and the length to 6. -/
theorem c3_extend_characterization_witness :
    (dynarray_extend dynarray_new [1, 1, 1, 1, 1, 1]).len = dynarray_new.len + 6 ∧
    (dynarray_new.cap - dynarray_new.len < 6 →
      dynarray_new.cap + 6 ≤ (dynarray_extend dynarray_new [1, 1, 1, 1, 1, 1]).cap ∧
      (∃ k, (dynarray_extend dynarray_new [1, 1, 1, 1, 1, 1]).cap = 2 ^ k) ∧
      ∀ m, dynarray_new.cap + 6 ≤ 2 ^ m →
        (dynarray_extend dynarray_new [1, 1, 1, 1, 1, 1]).cap ≤ 2 ^ m) := by
  obtain ⟨ha, _, hc⟩ :=
    c3_extend_characterization dynarray_new [1, 1, 1, 1, 1, 1] (by decide) (by decide)
  exact ⟨ha, hc⟩

/-! ## C2: push-driven growth -/

/-- C2: a push that triggers growth (`cap ≤ len`) sets the capacity to
`4 * s` bytes when the prior capacity was 0 and doubles it otherwise;
consequently, every push-reachable state has capacity 0 or `s * 2^k`
bytes — a power-of-two multiple of `s`. -/
theorem c2_push_growth (s : Nat) (hs : 0 < s) (hs61 : s ≤ 2 ^ 61) :
    (∀ a : dynarray, a.cap ≤ a.len → a.cap ≤ 2 ^ 62 →
      (dynarray_next a (type_new s)).2.cap = if a.cap = 0 then 4 * s else 2 * a.cap) ∧
    (∀ a : dynarray, dynarray_push_reachable s a → a.cap = 0 ∨ ∃ k, a.cap = s * 2 ^ k) := by
  have hstm : size_t_mod = 2 ^ 64 := rfl
  have hmin : DYN_ARRAY_MIN_CAP = 4 := rfl
  have hgrow : ∀ a : dynarray, a.cap ≤ a.len → a.cap ≤ 2 ^ 62 →
      (dynarray_next a (type_new s)).2.cap = if a.cap = 0 then 4 * s else 2 * a.cap := by
    intro a hle hcap
    rw [dynarray_next_eq, if_pos hle, dynarray_next_unchecked_snd_cap, dynarray_resize_cap]
    by_cases h0 : a.cap = 0
    · rw [if_neg (by omega), if_pos h0, hmin, hstm]
      show 4 * (type_new s).size % 2 ^ 64 = 4 * s
      have hsz : (type_new s).size = s := rfl
      rw [hsz]
      omega
    · rw [if_pos (by omega), if_neg h0, hstm]
      omega
  refine ⟨hgrow, fun a h => ?_⟩
  induction h with
  | new => exact Or.inl rfl
  | next a h hcap ih =>
    rw [dynarray_next_eq]
    by_cases hle : a.cap ≤ a.len
    · rw [if_pos hle, dynarray_next_unchecked_snd_cap, dynarray_resize_cap]
      rcases ih with h0 | ⟨k, hk⟩
      · rw [if_neg (by omega), hmin, hstm]
        refine Or.inr ⟨2, ?_⟩
        show 4 * (type_new s).size % 2 ^ 64 = s * 2 ^ 2
        have hsz : (type_new s).size = s := rfl
        rw [hsz]
        omega
      · have hpos : 0 < a.cap := by
          rw [hk]
          positivity
        rw [if_pos hpos, hstm]
        refine Or.inr ⟨k + 1, ?_⟩
        rw [Nat.mod_eq_of_lt (by omega), hk, pow_succ]
        ring
    · rw [if_neg hle, dynarray_next_unchecked_snd_cap]
      exact ih

/-- Witness for C2: the first push on a fresh array with a 4-byte
descriptor grows the capacity to `16 = 4 * 4` bytes, and the resulting
state is push-reachable with a power-of-two-multiple capacity. -/
theorem c2_push_growth_witness :
    (dynarray_next dynarray_new (type_new 4)).2.cap =
      (if dynarray_new.cap = 0 then 4 * 4 else 2 * dynarray_new.cap) ∧
    ((dynarray_next dynarray_new (type_new 4)).2.cap = 0 ∨
      ∃ k, (dynarray_next dynarray_new (type_new 4)).2.cap = 4 * 2 ^ k) := by
  constructor
  · exact (c2_push_growth 4 (by decide) (by norm_num)).1 dynarray_new (by decide) (by decide)
  · exact (c2_push_growth 4 (by decide) (by norm_num)).2 _
      (dynarray_push_reachable.next dynarray_new dynarray_push_reachable.new (by decide))

/-! ## C5: bounds-checked access -/

/-- C5: for both the array and the view, `get` with `index < length`
returns the pointer at byte offset `index * size` (and that element lies
inside the occupied bytes), while `get` with `index ≥ length` — in
particular `index = length` — takes the PANIC branch (`none`) and
returns no pointer. -/
theorem c5_get_bounds_checked (a : dynarray) (sl : Slice) (t : type) (i : Nat)
    (_ht : 0 < t.size) :
    (i < dynarray_length a t →
      dynarray_get a t i = some (i * t.size) ∧ (i + 1) * t.size ≤ a.len) ∧
    (dynarray_length a t ≤ i → dynarray_get a t i = none) ∧
    (i < slice_length sl t →
      slice_get sl t i = some (i * t.size) ∧ (i + 1) * t.size ≤ sl.bytes.length) ∧
    (slice_length sl t ≤ i → slice_get sl t i = none) := by
  have hdiv : ∀ n : Nat, i < n / t.size → (i + 1) * t.size ≤ n := by
    intro n h
    have h2 : i + 1 ≤ n / t.size := h
    calc (i + 1) * t.size ≤ n / t.size * t.size := Nat.mul_le_mul_right t.size h2
      _ ≤ n := Nat.div_mul_le_self n t.size
  refine ⟨fun h => ⟨?_, ?_⟩, fun h => ?_, fun h => ⟨?_, ?_⟩, fun h => ?_⟩
  · rw [dynarray_get, if_pos h]
  · exact hdiv a.len h
  · rw [dynarray_get, if_neg (by omega)]
  · rw [slice_get, if_pos h]
  · exact hdiv sl.bytes.length h
  · rw [slice_get, if_neg (by omega)]

/-- Witness for C5 on a 2-element array of 4-byte values and a 1-element
view: in-bounds accesses return the scaled offsets, `index = length` is
the PANIC branch. -/
theorem c5_get_bounds_checked_witness :
    (dynarray_get ⟨List.replicate 8 0, 8, 8⟩ (type_new 4) 1 = some 4 ∧
      (1 + 1) * 4 ≤ (8 : Nat)) ∧
    dynarray_get ⟨List.replicate 8 0, 8, 8⟩ (type_new 4) 2 = none ∧
    (slice_get ⟨[9, 9, 9, 9]⟩ (type_new 4) 0 = some 0 ∧ (0 + 1) * 4 ≤ (4 : Nat)) ∧
    slice_get ⟨[9, 9, 9, 9]⟩ (type_new 4) 1 = none := by
  obtain ⟨h1, -, -, h4⟩ :=
    c5_get_bounds_checked ⟨List.replicate 8 0, 8, 8⟩ ⟨[9, 9, 9, 9]⟩ (type_new 4) 1 (by decide)
  obtain ⟨-, -, h3, -⟩ :=
    c5_get_bounds_checked ⟨List.replicate 8 0, 8, 8⟩ ⟨[9, 9, 9, 9]⟩ (type_new 4) 0 (by decide)
  obtain ⟨-, h2, -, -⟩ :=
    c5_get_bounds_checked ⟨List.replicate 8 0, 8, 8⟩ ⟨[9, 9, 9, 9]⟩ (type_new 4) 2 (by decide)
  exact ⟨h1 (by decide), h2 (by decide), h3 (by decide), h4 (by decide)⟩

/-! ## C4: popping an empty array -/

/-- C4 (bug evidence): on an empty array the library `dynarray_pop`
(include/dynarray.c) returns `NULL` and leaves the state untouched, as
the claim states; but the copy of `dynarray_pop` embedded in src/main.c
guards with `len >= 0`, which is always true for a `size_t`, so on the
same input it wraps the length to `2^64 - 1` and returns a (non-`NULL`)
pointer — contradicting the claim and its own documentation. -/
theorem c4_pop_empty_divergence :
    dynarray_pop dynarray_new (type_new 1) = (none, dynarray_new) ∧
    dynarray_pop_main dynarray_new (type_new 1) =
      (some (2 ^ 64 - 1), { data := [], cap := 0, len := 2 ^ 64 - 1 }) := by
  constructor
  · rfl
  · decide

/-! ## C7: slice comparison -/

theorem slice_memcmp_eq (lhs rhs : Slice) :
    slice_memcmp lhs rhs =
      if ((size_t_mod + rhs.bytes.length - lhs.bytes.length) % size_t_mod) ≠ 0
      then int_of_size_t ((size_t_mod + rhs.bytes.length - lhs.bytes.length) % size_t_mod)
      else memcmp lhs.bytes rhs.bytes lhs.bytes.length := rfl

theorem memcmp_eq_zero_iff :
    ∀ (l1 l2 : List Nat), l1.length = l2.length → (memcmp l1 l2 l1.length = 0 ↔ l1 = l2)
  | [], [], _ => by simp [memcmp]
  | [], _ :: _, h => by simp at h
  | _ :: _, [], h => by simp at h
  | a :: as, b :: bs, h => by
    have hlen : as.length = bs.length := by simpa using h
    by_cases hab : a = b
    · subst hab
      have ih := memcmp_eq_zero_iff as bs hlen
      simpa [memcmp] using ih
    · have hne : (a : Int) - b ≠ 0 := by
        intro hq
        apply hab
        omega
      simp [memcmp, hab, hne]

/-- C7 counterexample: two slices whose byte lengths differ by exactly
`2^32` (an empty slice and a `2^32`-byte slice).  `len_ord = 2^32` is
nonzero, so `slice_memcmp` returns it — but truncated to the 32-bit
`int` return type it becomes `0`, so `slice_memcmp` reports equality and
`slice_memeq` is `true` although the lengths differ: the claim is false
as stated. -/
theorem c7_counterexample :
    (Slice.mk []).bytes.length ≠ (Slice.mk (List.replicate (2 ^ 32) 0)).bytes.length ∧
    slice_memcmp ⟨[]⟩ ⟨List.replicate (2 ^ 32) 0⟩ = 0 ∧
    slice_memeq ⟨[]⟩ ⟨List.replicate (2 ^ 32) 0⟩ = true := by
  have hlen : (List.replicate (2 ^ 32) (0 : Nat)).length = 2 ^ 32 :=
    List.length_replicate _ _
  have harg : (size_t_mod + (List.replicate (2 ^ 32) (0 : Nat)).length -
      ([] : List Nat).length) % size_t_mod = 2 ^ 32 := by
    rw [hlen, List.length_nil]
    norm_num [size_t_mod]
  have hcmp : slice_memcmp ⟨[]⟩ ⟨List.replicate (2 ^ 32) 0⟩ = 0 := by
    rw [slice_memcmp_eq]
    rw [show ((⟨List.replicate (2 ^ 32) 0⟩ : Slice).bytes.length) =
      (List.replicate (2 ^ 32) (0 : Nat)).length from rfl]
    rw [show ((⟨[]⟩ : Slice).bytes.length) = ([] : List Nat).length from rfl]
    rw [harg, if_pos (by norm_num)]
    decide
  have hmemeq : slice_memeq ⟨[]⟩ ⟨List.replicate (2 ^ 32) 0⟩ = true := by
    rw [show slice_memeq ⟨[]⟩ ⟨List.replicate (2 ^ 32) 0⟩ =
      decide (slice_memcmp ⟨[]⟩ ⟨List.replicate (2 ^ 32) 0⟩ = 0) from rfl]
    rw [hcmp]
    decide
  refine ⟨?_, hcmp, hmemeq⟩
  rw [show ((Slice.mk (List.replicate (2 ^ 32) 0)).bytes.length) =
    (List.replicate (2 ^ 32) (0 : Nat)).length from rfl]
  rw [hlen]
  norm_num

/-- C7 amended: provided the two byte lengths differ by less than `2^31`
(so the `size_t` length difference survives the conversion to the
32-bit `int` return type), `slice_memcmp` returns the nonzero length
difference `rhs_len - lhs_len` when the lengths differ, returns the
`memcmp` of the contents when the lengths are equal, and `slice_memeq`
is `true` exactly when the slices have identical bytes (same length and
content). -/
theorem c7_memcmp_memeq (lhs rhs : Slice)
    (_hl : lhs.bytes.length < 2 ^ 64) (_hr : rhs.bytes.length < 2 ^ 64)
    (hd1 : (rhs.bytes.length : Int) - lhs.bytes.length < 2 ^ 31)
    (hd2 : (lhs.bytes.length : Int) - rhs.bytes.length < 2 ^ 31) :
    (lhs.bytes.length ≠ rhs.bytes.length →
      slice_memcmp lhs rhs = (rhs.bytes.length : Int) - lhs.bytes.length ∧
      slice_memcmp lhs rhs ≠ 0) ∧
    (lhs.bytes.length = rhs.bytes.length →
      slice_memcmp lhs rhs = memcmp lhs.bytes rhs.bytes lhs.bytes.length) ∧
    (slice_memeq lhs rhs = true ↔ lhs.bytes = rhs.bytes) := by
  have hstm : size_t_mod = 2 ^ 64 := rfl
  set l := lhs.bytes.length with hldef
  set r := rhs.bytes.length with hrdef
  by_cases hlr : l = r
  · have hzero : (size_t_mod + r - l) % size_t_mod = 0 := by
      rw [hstm]
      omega
    have hcmp : slice_memcmp lhs rhs = memcmp lhs.bytes rhs.bytes l := by
      rw [slice_memcmp_eq, ← hldef, ← hrdef, hzero]
      simp
    refine ⟨fun hc => absurd hlr hc, fun _ => hcmp, ?_⟩
    rw [slice_memeq, hcmp]
    simp only [decide_eq_true_eq]
    exact memcmp_eq_zero_iff lhs.bytes rhs.bytes (by rw [← hldef, ← hrdef, hlr])
  · have hvnz : (size_t_mod + r - l) % size_t_mod ≠ 0 := by
      rw [hstm]
      omega
    have hval : int_of_size_t ((size_t_mod + r - l) % size_t_mod) = (r : Int) - l := by
      rw [int_of_size_t, hstm]
      by_cases hlt : l < r
      · rw [if_pos (by omega)]
        have hmod : (2 ^ 64 + r - l) % 2 ^ 64 % 2 ^ 32 = r - l := by omega
        rw [hmod]
        omega
      · rw [if_neg (by omega)]
        have hmod : (2 ^ 64 + r - l) % 2 ^ 64 % 2 ^ 32 = 2 ^ 32 - (l - r) := by omega
        rw [hmod]
        omega
    have hcmp : slice_memcmp lhs rhs = (r : Int) - l := by
      rw [slice_memcmp_eq, ← hldef, ← hrdef, if_pos hvnz, hval]
    have hnz : slice_memcmp lhs rhs ≠ 0 := by
      rw [hcmp]
      intro hq
      apply hlr
      omega
    refine ⟨fun _ => ⟨hcmp, hnz⟩, fun hc => absurd hc hlr, ?_⟩
    constructor
    · intro ht
      exfalso
      rw [slice_memeq, decide_eq_true_eq] at ht
      exact hnz ht
    · intro hb
      exfalso
      apply hlr
      rw [hldef, hrdef, hb]

/-- Witness for C7: `[1]` vs `[1, 2]` — different lengths give a nonzero
comparison and `slice_memeq` is `false`; on equal bytes `slice_memeq`
is `true`. -/
theorem c7_memcmp_memeq_witness :
    slice_memcmp ⟨[1]⟩ ⟨[1, 2]⟩ ≠ 0 ∧
    (slice_memeq ⟨[1]⟩ ⟨[1, 2]⟩ = true ↔ ([1] : List Nat) = [1, 2]) ∧
    (slice_memeq ⟨[1, 2]⟩ ⟨[1, 2]⟩ = true ↔ ([1, 2] : List Nat) = [1, 2]) := by
  obtain ⟨h1, -, h3⟩ :=
    c7_memcmp_memeq ⟨[1]⟩ ⟨[1, 2]⟩ (by decide) (by decide) (by decide) (by decide)
  obtain ⟨-, -, h6⟩ :=
    c7_memcmp_memeq ⟨[1, 2]⟩ ⟨[1, 2]⟩ (by decide) (by decide) (by decide) (by decide)
  exact ⟨(h1 (by decide)).2, h3, h6⟩

/-! ## C1: the `len ≤ cap` invariant -/

theorem c1_invariant_holds (s j : Nat) (hj : s = 2 ^ j) (hs61 : s ≤ 2 ^ 61) :
    ∀ a : dynarray, dynarray_reachable s a → c1_invariant s a := by
  have hstm : size_t_mod = 2 ^ 64 := rfl
  have hs : 0 < s := by
    rw [hj]
    positivity
  intro a h
  induction h with
  | new => exact ⟨le_refl 0, Dvd.intro 0 rfl, Dvd.intro 0 rfl, by decide⟩
  | next a h hcap ih =>
    obtain ⟨hlc, hdl, hdc, hc63⟩ := ih
    rw [dynarray_next_eq]
    by_cases hle : a.cap ≤ a.len
    · have hlen : a.len = a.cap := le_antisymm hle hlc |>.symm
      rw [if_pos hle]
      by_cases h0 : 0 < a.cap
      · have hscap : s ≤ a.cap := Nat.le_of_dvd h0 hdc
        have hcap2 : (dynarray_resize a (type_new s)).cap = 2 * a.cap := by
          rw [dynarray_resize_cap, if_pos h0, hstm]
          omega
        refine ⟨?_, ?_, ?_, ?_⟩
        · rw [dynarray_next_unchecked_snd_len, dynarray_next_unchecked_snd_cap,
            dynarray_resize_len, hcap2, hstm]
          have hsz : (type_new s).size = s := rfl
          rw [hsz]
          omega
        · rw [dynarray_next_unchecked_snd_len, dynarray_resize_len, hstm]
          have hsz : (type_new s).size = s := rfl
          rw [hsz, Nat.mod_eq_of_lt (by omega)]
          exact Nat.dvd_add hdl dvd_rfl
        · rw [dynarray_next_unchecked_snd_cap, hcap2]
          exact Dvd.dvd.mul_left hdc 2
        · rw [dynarray_next_unchecked_snd_cap, hcap2]
          omega
      · have hc0 : a.cap = 0 := by omega
        have hl0 : a.len = 0 := by omega
        have hcap2 : (dynarray_resize a (type_new s)).cap = 4 * s := by
          rw [dynarray_resize_cap, if_neg (by omega), hstm]
          show DYN_ARRAY_MIN_CAP * (type_new s).size % 2 ^ 64 = 4 * s
          have hmin : DYN_ARRAY_MIN_CAP = 4 := rfl
          have hsz : (type_new s).size = s := rfl
          rw [hmin, hsz]
          omega
        refine ⟨?_, ?_, ?_, ?_⟩
        · rw [dynarray_next_unchecked_snd_len, dynarray_next_unchecked_snd_cap,
            dynarray_resize_len, hcap2, hl0, hstm]
          have hsz : (type_new s).size = s := rfl
          rw [hsz]
          omega
        · rw [dynarray_next_unchecked_snd_len, dynarray_resize_len, hl0, hstm]
          have hsz : (type_new s).size = s := rfl
          rw [hsz, Nat.mod_eq_of_lt (by omega)]
          exact Dvd.intro 1 (by ring)
        · rw [dynarray_next_unchecked_snd_cap, hcap2]
          exact Dvd.dvd.mul_left dvd_rfl 4
        · rw [dynarray_next_unchecked_snd_cap, hcap2]
          omega
    · have hlt : a.len < a.cap := by omega
      have hsle : a.len + s ≤ a.cap := by
        obtain ⟨u, hu⟩ := hdl
        obtain ⟨v, hv⟩ := hdc
        have huv : u < v := by
          by_contra hc
          push_neg at hc
          have : a.cap ≤ a.len := by
            rw [hu, hv]
            exact Nat.mul_le_mul_left s hc
          omega
        have hmul : s * (u + 1) ≤ s * v := Nat.mul_le_mul_left s huv
        rw [Nat.mul_add, Nat.mul_one] at hmul
        rw [hu, hv]
        omega
      rw [if_neg hle]
      refine ⟨?_, ?_, ?_, ?_⟩
      · rw [dynarray_next_unchecked_snd_len, dynarray_next_unchecked_snd_cap, hstm]
        have hsz : (type_new s).size = s := rfl
        rw [hsz, Nat.mod_eq_of_lt (by omega)]
        omega
      · rw [dynarray_next_unchecked_snd_len, hstm]
        have hsz : (type_new s).size = s := rfl
        rw [hsz, Nat.mod_eq_of_lt (by omega)]
        exact Nat.dvd_add hdl dvd_rfl
      · rw [dynarray_next_unchecked_snd_cap]
        exact hdc
      · rw [dynarray_next_unchecked_snd_cap]
        omega
  | ext a buf h hdvd hsz ih =>
    obtain ⟨hlc, hdl, hdc, hc63⟩ := ih
    have hrem : (size_t_mod + a.cap - a.len) % size_t_mod = a.cap - a.len := by
      rw [hstm]
      omega
    rw [dynarray_extend_eq, hrem]
    by_cases hg : a.cap - a.len < buf.length
    · have hd1 : 1 ≤ buf.length := by omega
      have hds : s ≤ buf.length := Nat.le_of_dvd (by omega) hdvd
      have hsum : (a.cap + buf.length) % size_t_mod = a.cap + buf.length := by
        rw [hstm]
        omega
      obtain ⟨hge, ⟨k, hk⟩, hmin⟩ :=
        minpow2_spec (a.cap + buf.length) (by omega) (by omega)
      have hcap : (dynarray_resize_to_fit a buf.length).cap =
          minpow2 (a.cap + buf.length) := by
        rw [dynarray_resize_to_fit_cap, hsum]
      have hcap63 : minpow2 (a.cap + buf.length) ≤ 2 ^ 63 :=
        hmin 63 (by omega)
      have hjk : j ≤ k := by
        have h1 : 2 ^ j ≤ 2 ^ k := by
          rw [← hj, ← hk]
          omega
        by_contra hc
        push_neg at hc
        have h2 : 2 ^ k < 2 ^ j := Nat.pow_lt_pow_right (by norm_num) hc
        omega
      rw [if_pos hg]
      refine ⟨?_, ?_, ?_, ?_⟩
      · rw [dynarray_extend_unchecked_len, dynarray_extend_unchecked_cap,
          dynarray_resize_to_fit_len, hcap, hstm]
        rw [Nat.mod_eq_of_lt (by omega)]
        omega
      · rw [dynarray_extend_unchecked_len, dynarray_resize_to_fit_len, hstm]
        rw [Nat.mod_eq_of_lt (by omega)]
        exact Nat.dvd_add hdl hdvd
      · rw [dynarray_extend_unchecked_cap, hcap, hk, hj]
        exact pow_dvd_pow 2 hjk
      · rw [dynarray_extend_unchecked_cap, hcap]
        exact hcap63
    · rw [if_neg hg]
      refine ⟨?_, ?_, ?_, ?_⟩
      · rw [dynarray_extend_unchecked_len, dynarray_extend_unchecked_cap, hstm]
        rw [Nat.mod_eq_of_lt (by omega)]
        omega
      · rw [dynarray_extend_unchecked_len, hstm]
        rw [Nat.mod_eq_of_lt (by omega)]
        exact Nat.dvd_add hdl hdvd
      · rw [dynarray_extend_unchecked_cap]
        exact hdc
      · rw [dynarray_extend_unchecked_cap]
        exact hc63
  | pop a h ih =>
    obtain ⟨hlc, hdl, hdc, hc63⟩ := ih
    by_cases h0 : 0 < a.len
    · have hsl : s ≤ a.len := Nat.le_of_dvd h0 hdl
      rw [dynarray_pop_pos a (type_new s) h0]
      have hsz : (type_new s).size = s := rfl
      have hnew : (size_t_mod + a.len - (type_new s).size) % size_t_mod = a.len - s := by
        rw [hsz, hstm]
        omega
      refine ⟨?_, ?_, hdc, hc63⟩
      · show (size_t_mod + a.len - (type_new s).size) % size_t_mod ≤ a.cap
        rw [hnew]
        omega
      · show s ∣ (size_t_mod + a.len - (type_new s).size) % size_t_mod
        rw [hnew]
        exact Nat.dvd_sub (le_refl _ |>.trans hsl) hdl dvd_rfl
    · have hl0 : a.len = 0 := by omega
      rw [dynarray_pop_zero a (type_new s) hl0]
      exact ⟨hlc, hdl, hdc, hc63⟩

/-- C1 amended: the invariant `len ≤ cap` holds in every reachable state
provided the fixed descriptor size is a power of two (`s = 2^j`) — the
condition the counterexample shows is necessary — and the
no-overflow/whole-element side conditions of `dynarray_reachable`. -/
theorem c1_len_le_cap (s j : Nat) (hj : s = 2 ^ j) (hs61 : s ≤ 2 ^ 61)
    (a : dynarray) (h : dynarray_reachable s a) : a.len ≤ a.cap :=
  (c1_invariant_holds s j hj hs61 a h).1

/-- C1 counterexample: with descriptor size 3 (consistently used, whole
elements extended — but not a power of two), the sequence new → extend 6
bytes → push reaches a state with `cap = 8 < 9 = len`: the claimed
invariant `len ≤ cap` fails on the code as stated. -/
theorem c1_counterexample :
    dynarray_reachable 3 c1_bad_state ∧ c1_bad_state.cap < c1_bad_state.len := by
  constructor
  · exact dynarray_reachable.next _
      (dynarray_reachable.ext _ _ dynarray_reachable.new (by decide) (by decide))
      (by decide)
  · decide

/-- Witness for C1 on a size-4 (power-of-two) descriptor: after
new → extend 8 bytes → push, the invariant `len ≤ cap` holds. -/
theorem c1_len_le_cap_witness :
    (dynarray_next (dynarray_extend dynarray_new [1, 2, 3, 4, 5, 6, 7, 8])
      (type_new 4)).2.len ≤
    (dynarray_next (dynarray_extend dynarray_new [1, 2, 3, 4, 5, 6, 7, 8])
      (type_new 4)).2.cap :=
  c1_len_le_cap 4 2 rfl (by norm_num) _
    (dynarray_reachable.next _
      (dynarray_reachable.ext _ _ dynarray_reachable.new (by decide) (by decide))
      (by decide))

/-! ## C6: push then pop returns the pushed value -/

theorem realloc_bytes_length (d : List Nat) (n : Nat) :
    (realloc_bytes d n).length = n := by
  simp [realloc_bytes, List.length_take, List.length_append, List.length_replicate]

theorem write_bytes_length (d : List Nat) (off : Nat) (buf : List Nat)
    (h : off + buf.length ≤ d.length) :
    (write_bytes d off buf).length = d.length := by
  simp [write_bytes, List.length_append, List.length_take, List.length_drop]
  omega

theorem write_bytes_read (d : List Nat) (off : Nat) (buf : List Nat)
    (h : off ≤ d.length) :
    ((write_bytes d off buf).drop off).take buf.length = buf := by
  have h1 : (d.take off).length = off := by
    rw [List.length_take]
    omega
  obtain ⟨p, hp, hplen⟩ :
      ∃ p, write_bytes d off buf = p ++ (buf ++ d.drop (off + buf.length)) ∧
        p.length = off :=
    ⟨d.take off, by rw [write_bytes, List.append_assoc], h1⟩
  rw [hp, ← hplen, List.drop_left, List.take_left]

theorem dvd_lt_imp_add_le {s l c : Nat} (hdl : s ∣ l) (hdc : s ∣ c) (h : l < c) :
    l + s ≤ c := by
  obtain ⟨u, hu⟩ := hdl
  obtain ⟨v, hv⟩ := hdc
  have huv : u < v := by
    by_contra hc
    push_neg at hc
    have hle : s * v ≤ s * u := Nat.mul_le_mul_left s hc
    omega
  have hmul : s * (u + 1) ≤ s * v := Nat.mul_le_mul_left s huv
  rw [Nat.mul_add, Nat.mul_one] at hmul
  omega

/-- After `dynarray_next` on a well-formed array whose length and
capacity are whole multiples of the element size, the claimed slot fits:
the offset is the old length, the new length is `len + s ≤ cap'`, and
the buffer has `cap'` bytes. -/
theorem dynarray_next_fits (a : dynarray) (s : Nat)
    (hs : 0 < s) (hs61 : s ≤ 2 ^ 61) (h1 : a.len ≤ a.cap) (h2 : s ∣ a.len)
    (h3 : s ∣ a.cap) (h4 : a.cap ≤ 2 ^ 62) (h5 : a.data.length = a.cap) :
    (dynarray_next a (type_new s)).1 = a.len ∧
    (dynarray_next a (type_new s)).2.len = a.len + s ∧
    a.len + s ≤ (dynarray_next a (type_new s)).2.cap ∧
    (dynarray_next a (type_new s)).2.data.length = (dynarray_next a (type_new s)).2.cap ∧
    (dynarray_next a (type_new s)).2.cap ≤ 2 ^ 63 := by
  have hstm : size_t_mod = 2 ^ 64 := rfl
  have hsz : (type_new s).size = s := rfl
  rw [dynarray_next_eq]
  by_cases hle : a.cap ≤ a.len
  · rw [if_pos hle]
    have hcapfit : a.len + s ≤ (dynarray_resize a (type_new s)).cap ∧
        (dynarray_resize a (type_new s)).cap ≤ 2 ^ 63 := by
      rw [dynarray_resize_cap]
      by_cases h0 : 0 < a.cap
      · have hscap : s ≤ a.cap := Nat.le_of_dvd h0 h3
        rw [if_pos h0, hstm]
        omega
      · rw [if_neg h0, hstm]
        show a.len + s ≤ DYN_ARRAY_MIN_CAP * (type_new s).size % 2 ^ 64 ∧
          DYN_ARRAY_MIN_CAP * (type_new s).size % 2 ^ 64 ≤ 2 ^ 63
        have hmin : DYN_ARRAY_MIN_CAP = 4 := rfl
        rw [hmin, hsz]
        omega
    refine ⟨?_, ?_, ?_, ?_, ?_⟩
    · rw [dynarray_next_unchecked_fst, dynarray_resize_len]
    · rw [dynarray_next_unchecked_snd_len, dynarray_resize_len, hsz, hstm,
        Nat.mod_eq_of_lt (by omega)]
    · rw [dynarray_next_unchecked_snd_cap]
      exact hcapfit.1
    · rw [dynarray_next_unchecked_snd_data, dynarray_next_unchecked_snd_cap,
        dynarray_resize_data, realloc_bytes_length]
    · rw [dynarray_next_unchecked_snd_cap]
      exact hcapfit.2
  · rw [if_neg hle]
    have hfit : a.len + s ≤ a.cap := dvd_lt_imp_add_le h2 h3 (by omega)
    refine ⟨?_, ?_, ?_, ?_, ?_⟩
    · rw [dynarray_next_unchecked_fst]
    · rw [dynarray_next_unchecked_snd_len, hsz, hstm, Nat.mod_eq_of_lt (by omega)]
    · rw [dynarray_next_unchecked_snd_cap]
      exact hfit
    · rw [dynarray_next_unchecked_snd_data, dynarray_next_unchecked_snd_cap]
      exact h5
    · rw [dynarray_next_unchecked_snd_cap]
      omega

/-- C6: on a well-formed array (`len ≤ cap`, both whole multiples of the
element size `s`, buffer of `cap` bytes, no-overflow bounds), pushing an
`s`-byte value `v` (writing it through the `dynarray_next` pointer) and
then popping with the same descriptor returns a non-`NULL` pointer whose
`s` pointed-to bytes equal `v`, with the length back at its pre-push
value. -/
theorem c6_push_pop_roundtrip (a : dynarray) (s : Nat) (v : List Nat)
    (hs : 0 < s) (hs61 : s ≤ 2 ^ 61) (hv : v.length = s)
    (h1 : a.len ≤ a.cap) (h2 : s ∣ a.len) (h3 : s ∣ a.cap)
    (h4 : a.cap ≤ 2 ^ 62) (h5 : a.data.length = a.cap) :
    (dynarray_pop (dynarray_push_val a (type_new s) v) (type_new s)).1 = some a.len ∧
    ((dynarray_pop (dynarray_push_val a (type_new s) v) (type_new s)).2.data.drop
      a.len).take s = v ∧
    (dynarray_pop (dynarray_push_val a (type_new s) v) (type_new s)).2.len = a.len := by
  have hstm : size_t_mod = 2 ^ 64 := rfl
  have hsz : (type_new s).size = s := rfl
  obtain ⟨hoff, hlen, hfit, hdata, hcap63⟩ :=
    dynarray_next_fits a s hs hs61 h1 h2 h3 h4 h5
  set b := dynarray_next a (type_new s) with hb
  have hpush : dynarray_push_val a (type_new s) v =
      { b.2 with data := write_bytes b.2.data b.1 v } := rfl
  have hplen : (dynarray_push_val a (type_new s) v).len = a.len + s := by
    rw [hpush]
    exact hlen
  have hpdata : (dynarray_push_val a (type_new s) v).data =
      write_bytes b.2.data a.len v := by
    rw [hpush, hoff]
  have hpop : dynarray_pop (dynarray_push_val a (type_new s) v) (type_new s) =
      (some ((size_t_mod + (a.len + s) - s) % size_t_mod),
       { dynarray_push_val a (type_new s) v with
         len := (size_t_mod + (a.len + s) - s) % size_t_mod }) := by
    rw [dynarray_pop_pos _ _ (by rw [hplen]; omega), hplen, hsz]
  have hmod : (size_t_mod + (a.len + s) - s) % size_t_mod = a.len := by
    rw [hstm]
    omega
  rw [hpop, hmod]
  refine ⟨rfl, ?_, rfl⟩
  show (((dynarray_push_val a (type_new s) v).data).drop a.len).take s = v
  rw [hpdata, show s = v.length from hv.symm]
  exact write_bytes_read b.2.data a.len v (by omega)

/-- Witness for C6: pushing the 4-byte value `[1, 2, 3, 4]` onto a fresh
array and popping returns offset 0 with those bytes, length back to 0. -/
theorem c6_push_pop_roundtrip_witness :
    (dynarray_pop (dynarray_push_val dynarray_new (type_new 4) [1, 2, 3, 4])
      (type_new 4)).1 = some dynarray_new.len ∧
    ((dynarray_pop (dynarray_push_val dynarray_new (type_new 4) [1, 2, 3, 4])
      (type_new 4)).2.data.drop dynarray_new.len).take 4 = [1, 2, 3, 4] ∧
    (dynarray_pop (dynarray_push_val dynarray_new (type_new 4) [1, 2, 3, 4])
      (type_new 4)).2.len = dynarray_new.len :=
  c6_push_pop_roundtrip dynarray_new 4 [1, 2, 3, 4] (by decide) (by norm_num)
    (by decide) (by decide) (by decide) (by decide) (by decide) (by decide)

/-! ## C9: formatting an integer dynarray -/

/-- C9: formatting the dynarray of 4-byte (little-endian) integers
`1, 2, 3` through `fmt_dynarray` with the `fmt_int` formatter appends
exactly the text `{ 1, 2, 3 }` (plus the NUL terminator of the builder) to a
fresh string builder. -/
theorem c9_fmt_int_dynarray :
    cstring_content
      (fmt_dynarray cstring_new
        (dynarray_extend dynarray_new [1, 0, 0, 0, 2, 0, 0, 0, 3, 0, 0, 0])
        (type_new 4) fmt_int_formatter) =
      str_bytes "\x7b 1, 2, 3 \x7d" ++ [0] := by
  decide

/-! ## C8: the NUL-termination invariant of `cstring` -/

theorem realloc_bytes_take (d : List Nat) (n m : Nat) (h1 : m ≤ n) (h2 : m ≤ d.length) :
    (realloc_bytes d n).take m = d.take m := by
  rw [realloc_bytes, List.take_take, min_eq_left h1]
  exact List.take_append_of_le_length h2

theorem write_bytes_take (d : List Nat) (off : Nat) (buf : List Nat)
    (h : off + buf.length ≤ d.length) :
    (write_bytes d off buf).take (off + buf.length) = d.take off ++ buf := by
  have h1 : (d.take off ++ buf).length = off + buf.length := by
    simp [List.length_take]
    omega
  rw [write_bytes, ← h1, List.take_left]

/-- One byte-push keeps the array well formed, appends the byte to the
occupied region, and at most doubles the capacity (or brings it to the
minimum 4). -/
theorem dynarray_push_byte_spec (a : dynarray) (b : Nat)
    (h1 : a.len ≤ a.cap) (h5 : a.data.length = a.cap) (h4 : a.cap ≤ 2 ^ 62) :
    (dynarray_push_byte a b).len = a.len + 1 ∧
    (dynarray_push_byte a b).len ≤ (dynarray_push_byte a b).cap ∧
    (dynarray_push_byte a b).data.length = (dynarray_push_byte a b).cap ∧
    (dynarray_push_byte a b).cap ≤ max (2 * a.cap) 4 ∧
    (dynarray_push_byte a b).data.take (a.len + 1) = a.data.take a.len ++ [b] := by
  have hstm : size_t_mod = 2 ^ 64 := rfl
  obtain ⟨hoff, hlen, hfit, hdl, hcap63⟩ :=
    dynarray_next_fits a 1 (by norm_num) (by norm_num) h1 (one_dvd _) (one_dvd _) h4 h5
  have hextra : (dynarray_next a (type_new 1)).2.cap ≤ max (2 * a.cap) 4 ∧
      (dynarray_next a (type_new 1)).2.data.take a.len = a.data.take a.len := by
    rw [dynarray_next_eq]
    by_cases hle : a.cap ≤ a.len
    · rw [if_pos hle, dynarray_next_unchecked_snd_cap, dynarray_next_unchecked_snd_data]
      have hcapv : (dynarray_resize a (type_new 1)).cap ≤ max (2 * a.cap) 4 ∧
          a.len ≤ (dynarray_resize a (type_new 1)).cap := by
        rw [dynarray_resize_cap]
        by_cases h0 : 0 < a.cap
        · rw [if_pos h0, hstm]
          constructor
          · calc a.cap * 2 % 2 ^ 64 ≤ a.cap * 2 := Nat.mod_le _ _
              _ = 2 * a.cap := by ring
              _ ≤ max (2 * a.cap) 4 := le_max_left _ _
          · omega
        · rw [if_neg h0]
          have hv : DYN_ARRAY_MIN_CAP * (type_new 1).size % size_t_mod = 4 := by decide
          rw [hv]
          constructor
          · exact le_max_right _ _
          · omega
      constructor
      · exact hcapv.1
      · rw [dynarray_resize_data]
        exact realloc_bytes_take a.data _ a.len hcapv.2 (by omega)
    · rw [if_neg hle, dynarray_next_unchecked_snd_cap, dynarray_next_unchecked_snd_data]
      exact ⟨by omega, rfl⟩
  have hpush : dynarray_push_byte a b =
      { (dynarray_next a (type_new 1)).2 with
        data := write_bytes (dynarray_next a (type_new 1)).2.data
          (dynarray_next a (type_new 1)).1 [b] } := rfl
  refine ⟨?_, ?_, ?_, ?_, ?_⟩
  · rw [hpush]
    exact hlen
  · rw [hpush]
    show (dynarray_next a (type_new 1)).2.len ≤ (dynarray_next a (type_new 1)).2.cap
    omega
  · rw [hpush]
    show (write_bytes (dynarray_next a (type_new 1)).2.data
      (dynarray_next a (type_new 1)).1 [b]).length = (dynarray_next a (type_new 1)).2.cap
    rw [hoff, write_bytes_length _ _ _ (by simp; omega)]
    exact hdl
  · rw [hpush]
    exact hextra.1
  · rw [hpush]
    show (write_bytes (dynarray_next a (type_new 1)).2.data
      (dynarray_next a (type_new 1)).1 [b]).take (a.len + 1) = a.data.take a.len ++ [b]
    rw [hoff]
    have hw := write_bytes_take (dynarray_next a (type_new 1)).2.data a.len [b]
      (by simp; omega)
    simp only [List.length_cons, List.length_nil] at hw
    rw [hw, hextra.2]

/-- Popping one byte from a nonempty array only decrements `len`. -/
theorem dynarray_pop_u8_state (a : dynarray) (h0 : 0 < a.len) (hlt : a.len ≤ 2 ^ 63) :
    (dynarray_pop a (type_new 1)).2 = { a with len := a.len - 1 } := by
  have hmod : (size_t_mod + a.len - (type_new 1).size) % size_t_mod = a.len - 1 := by
    show (size_t_mod + a.len - 1) % size_t_mod = a.len - 1
    have hstm : size_t_mod = 2 ^ 64 := rfl
    rw [hstm]
    omega
  rw [dynarray_pop_pos a _ h0, hmod]

/-- `dynarray_extend` on a well-formed array: appends the bytes to the
occupied region, keeps the array well formed, and keeps the capacity
within the `2^62` no-overflow budget. -/
theorem dynarray_extend_spec (a : dynarray) (buf : List Nat)
    (h1 : a.len ≤ a.cap) (h5 : a.data.length = a.cap)
    (hb : a.cap + buf.length ≤ 2 ^ 62) :
    (dynarray_extend a buf).len = a.len + buf.length ∧
    (dynarray_extend a buf).len ≤ (dynarray_extend a buf).cap ∧
    (dynarray_extend a buf).data.length = (dynarray_extend a buf).cap ∧
    (dynarray_extend a buf).cap ≤ 2 ^ 62 ∧
    (dynarray_extend a buf).data.take (a.len + buf.length) =
      a.data.take a.len ++ buf := by
  have hstm : size_t_mod = 2 ^ 64 := rfl
  have hrem : (size_t_mod + a.cap - a.len) % size_t_mod = a.cap - a.len := by
    rw [hstm]
    omega
  rw [dynarray_extend_eq, hrem]
  by_cases hg : a.cap - a.len < buf.length
  · rw [if_pos hg]
    have hsum : (a.cap + buf.length) % size_t_mod = a.cap + buf.length := by
      rw [hstm]
      omega
    obtain ⟨hge, ⟨k, hk⟩, hmin⟩ :=
      minpow2_spec (a.cap + buf.length) (by omega) (by omega)
    have hcap : (dynarray_resize_to_fit a buf.length).cap =
        minpow2 (a.cap + buf.length) := by
      rw [dynarray_resize_to_fit_cap, hsum]
    have hcap62 : minpow2 (a.cap + buf.length) ≤ 2 ^ 62 := hmin 62 hb
    have hdata : (dynarray_resize_to_fit a buf.length).data.length =
        minpow2 (a.cap + buf.length) := by
      rw [dynarray_resize_to_fit_data, realloc_bytes_length, hcap]
    refine ⟨?_, ?_, ?_, ?_, ?_⟩
    · rw [dynarray_extend_unchecked_len, dynarray_resize_to_fit_len, hstm,
        Nat.mod_eq_of_lt (by omega)]
    · rw [dynarray_extend_unchecked_len, dynarray_extend_unchecked_cap,
        dynarray_resize_to_fit_len, hcap, hstm, Nat.mod_eq_of_lt (by omega)]
      omega
    · rw [dynarray_extend_unchecked_data, dynarray_extend_unchecked_cap, hcap]
      rw [write_bytes_length _ _ _ (by rw [hdata, dynarray_resize_to_fit_len]; omega)]
      rw [hdata]
    · rw [dynarray_extend_unchecked_cap, hcap]
      exact hcap62
    · rw [dynarray_extend_unchecked_data, dynarray_resize_to_fit_len]
      have hw := write_bytes_take (dynarray_resize_to_fit a buf.length).data a.len buf
        (by rw [hdata]; omega)
      rw [hw, dynarray_resize_to_fit_data]
      rw [realloc_bytes_take a.data _ a.len (by rw [hcap]; omega) (by omega)]
  · rw [if_neg hg]
    refine ⟨?_, ?_, ?_, ?_, ?_⟩
    · rw [dynarray_extend_unchecked_len, hstm, Nat.mod_eq_of_lt (by omega)]
    · rw [dynarray_extend_unchecked_len, dynarray_extend_unchecked_cap, hstm,
        Nat.mod_eq_of_lt (by omega)]
      omega
    · rw [dynarray_extend_unchecked_data, dynarray_extend_unchecked_cap,
        write_bytes_length _ _ _ (by omega)]
      exact h5
    · rw [dynarray_extend_unchecked_cap]
      omega
    · rw [dynarray_extend_unchecked_data]
      exact write_bytes_take a.data a.len buf (by omega)

/-- Folding byte-pushes appends the byte list to the occupied region;
the capacity stays within the stated doubling budget. -/
theorem foldl_push_bytes (bytes : List Nat) : ∀ a : dynarray,
    a.len ≤ a.cap → a.data.length = a.cap →
    2 ^ bytes.length * (a.cap + 4) ≤ 2 ^ 63 →
    (bytes.foldl dynarray_push_byte a).len = a.len + bytes.length ∧
    (bytes.foldl dynarray_push_byte a).len ≤ (bytes.foldl dynarray_push_byte a).cap ∧
    (bytes.foldl dynarray_push_byte a).data.length =
      (bytes.foldl dynarray_push_byte a).cap ∧
    (bytes.foldl dynarray_push_byte a).cap + 4 ≤ 2 ^ bytes.length * (a.cap + 4) ∧
    (bytes.foldl dynarray_push_byte a).data.take
      ((bytes.foldl dynarray_push_byte a).len) = a.data.take a.len ++ bytes := by
  induction bytes with
  | nil =>
    intro a h1 h5 _
    simp only [List.foldl_nil, List.length_nil, List.append_nil]
    exact ⟨rfl, h1, h5, by omega, trivial⟩
  | cons b rest ih =>
    intro a h1 h5 hbound
    rw [List.length_cons, pow_succ] at hbound
    have hcap62 : a.cap ≤ 2 ^ 62 := by
      have hp : 1 ≤ 2 ^ rest.length := Nat.one_le_two_pow
      nlinarith
    obtain ⟨pl, pok, pdl, pcap, pcontent⟩ := dynarray_push_byte_spec a b h1 h5 hcap62
    have hstep : (b :: rest).foldl dynarray_push_byte a =
        rest.foldl dynarray_push_byte (dynarray_push_byte a b) := rfl
    have hbound2 : 2 ^ rest.length * ((dynarray_push_byte a b).cap + 4) ≤ 2 ^ 63 := by
      have hle : (dynarray_push_byte a b).cap + 4 ≤ 2 * (a.cap + 4) := by
        have := pcap
        omega
      calc 2 ^ rest.length * ((dynarray_push_byte a b).cap + 4)
          ≤ 2 ^ rest.length * (2 * (a.cap + 4)) := Nat.mul_le_mul_left _ hle
        _ = 2 ^ rest.length * 2 * (a.cap + 4) := by ring
        _ ≤ 2 ^ 63 := hbound
    obtain ⟨ql, qok, qdl, qcap, qcontent⟩ :=
      ih (dynarray_push_byte a b) pok pdl hbound2
    rw [hstep]
    refine ⟨?_, qok, qdl, ?_, ?_⟩
    · rw [ql, pl, List.length_cons]
      omega
    · calc (rest.foldl dynarray_push_byte (dynarray_push_byte a b)).cap + 4
          ≤ 2 ^ rest.length * ((dynarray_push_byte a b).cap + 4) := qcap
        _ ≤ 2 ^ rest.length * (2 * (a.cap + 4)) := by
            refine Nat.mul_le_mul_left _ ?_
            have := pcap
            omega
        _ = 2 ^ rest.length * (a.cap + 4) * 2 := by ring
        _ ≤ 2 ^ (b :: rest).length * (a.cap + 4) :=
            le_of_eq (by rw [List.length_cons, pow_succ]; ring)
    · rw [qcontent, pl, pcontent, List.append_assoc]
      rfl

theorem or_byte_ne_zero (c y : Nat) (hc : Nat.testBit c 7 = true) :
    (c ||| y) % 256 ≠ 0 := by
  intro h
  have h256 : (256 : Nat) = 2 ^ 8 := by norm_num
  have h7 : Nat.testBit ((c ||| y) % 2 ^ 8) 7 = false := by
    rw [← h256, h]
    exact Nat.zero_testBit 7
  rw [Nat.testBit_mod_two_pow, Nat.testBit_or, hc] at h7
  simp at h7

theorem encode_utf8_ne_zero (ch : Nat) (hch : ch % 2 ^ 32 ≠ 0) :
    0 ∉ encode_utf8 ch := by
  have hb1 : ∀ y : Nat, (0xc0 ||| y) % 256 ≠ 0 := fun y => or_byte_ne_zero 0xc0 y (by decide)
  have hb2 : ∀ y : Nat, (0x80 ||| y) % 256 ≠ 0 := fun y => or_byte_ne_zero 0x80 y (by decide)
  have hb3 : ∀ y : Nat, (0xe0 ||| y) % 256 ≠ 0 := fun y => or_byte_ne_zero 0xe0 y (by decide)
  have hb4 : ∀ y : Nat, (0xf0 ||| y) % 256 ≠ 0 := fun y => or_byte_ne_zero 0xf0 y (by decide)
  intro hmem
  simp only [encode_utf8] at hmem
  split_ifs at hmem with h1 h2 h3
  · simp only [List.mem_singleton] at hmem
    exact hch hmem.symm
  · simp only [List.mem_cons, List.not_mem_nil, or_false] at hmem
    rcases hmem with h | h
    · exact hb1 _ h.symm
    · exact hb2 _ h.symm
  · simp only [List.mem_cons, List.not_mem_nil, or_false] at hmem
    rcases hmem with h | h | h
    · exact hb3 _ h.symm
    · exact hb2 _ h.symm
    · exact hb2 _ h.symm
  · simp only [List.mem_cons, List.not_mem_nil, or_false] at hmem
    rcases hmem with h | h | h | h
    · exact hb4 _ h.symm
    · exact hb2 _ h.symm
    · exact hb2 _ h.symm
    · exact hb2 _ h.symm

theorem encode_utf8_length_le (ch : Nat) : (encode_utf8 ch).length ≤ 4 := by
  simp only [encode_utf8]
  split_ifs <;> simp

/-- Popping the trailing byte of a builder whose content is `v ++ [0]`
(or of the freshly-created empty builder) leaves the occupied region at
exactly `v`. -/
theorem cstring_pop_nul (s : cstring) (v : List Nat)
    (hok : cstring_ok s) (hcap : s.buf.cap ≤ 2 ^ 62)
    (hcontent : cstring_content s = v ++ [0] ∨ (cstring_content s = [] ∧ v = [])) :
    (dynarray_pop s.buf (type_new 1)).2.len = v.length ∧
    (dynarray_pop s.buf (type_new 1)).2.cap = s.buf.cap ∧
    (dynarray_pop s.buf (type_new 1)).2.data = s.buf.data ∧
    (dynarray_pop s.buf (type_new 1)).2.len ≤ s.buf.len ∧
    (dynarray_pop s.buf (type_new 1)).2.data.take
      ((dynarray_pop s.buf (type_new 1)).2.len) = v := by
  obtain ⟨hle, hdl⟩ := hok
  have hclen : (cstring_content s).length = s.buf.len := by
    rw [cstring_content, List.length_take]
    omega
  rcases hcontent with hc | ⟨hc, hv⟩
  · have hlen : s.buf.len = v.length + 1 := by
      rw [hc] at hclen
      simpa using hclen.symm
    have hpop := dynarray_pop_u8_state s.buf (by omega) (by omega)
    rw [hpop]
    refine ⟨by show s.buf.len - 1 = v.length; omega, rfl, rfl,
      by show s.buf.len - 1 ≤ s.buf.len; omega, ?_⟩
    show s.buf.data.take (s.buf.len - 1) = v
    have ht : s.buf.data.take (s.buf.len - 1) =
        (s.buf.data.take s.buf.len).take v.length := by
      rw [List.take_take]
      congr 1
      omega
    rw [ht, show s.buf.data.take s.buf.len = v ++ [0] from hc]
    exact List.take_left v [0]
  · have hlen : s.buf.len = 0 := by
      rw [hc] at hclen
      simpa using hclen.symm
    rw [dynarray_pop_zero s.buf _ hlen]
    subst hv
    exact ⟨by simpa using hlen, rfl, rfl, le_refl _, by rw [hlen]; rfl⟩

/-- `cstring_extend` on a well-formed builder: the visible content gains
`buf` in front of the re-pushed NUL, and the builder stays well formed. -/
theorem cstring_extend_spec (s : cstring) (buf v : List Nat)
    (hok : cstring_ok s)
    (hcontent : cstring_content s = v ++ [0] ∨ (cstring_content s = [] ∧ v = []))
    (hsz : s.buf.cap + buf.length ≤ 2 ^ 62) :
    cstring_ok (cstring_extend s buf) ∧
    cstring_content (cstring_extend s buf) = (v ++ buf) ++ [0] := by
  obtain ⟨hpl, hpc, hpd, hple, hptake⟩ :=
    cstring_pop_nul s v hok (by omega) hcontent
  set b1 := (dynarray_pop s.buf (type_new 1)).2 with hb1
  have h1 : b1.len ≤ b1.cap := by
    rw [hpc]
    exact le_trans hple hok.1
  have hd1 : b1.data.length = b1.cap := by
    rw [hpd, hpc]
    exact hok.2
  obtain ⟨el, eok, edl, ecap, etake⟩ :=
    dynarray_extend_spec b1 buf h1 hd1 (by rw [hpc]; omega)
  set b2 := dynarray_extend b1 buf with hb2
  obtain ⟨pl2, pok2, pdl2, pcap2, ptake2⟩ := dynarray_push_byte_spec b2 0 eok edl ecap
  have hc2 : b2.data.take b2.len = v ++ buf := by
    rw [el, etake, hptake]
  refine ⟨⟨pok2, pdl2⟩, ?_⟩
  show (dynarray_push_byte b2 0).data.take (dynarray_push_byte b2 0).len =
    (v ++ buf) ++ [0]
  rw [pl2]
  have ptake3 : (dynarray_push_byte b2 0).data.take (b2.len + 1) =
      b2.data.take b2.len ++ [0] := ptake2
  rw [ptake3, hc2]

/-- `cstring_push` on a well-formed builder: the visible content gains
the UTF-8 encoding of the codepoint in front of the re-pushed NUL. -/
theorem cstring_push_spec (s : cstring) (ch : Nat) (v : List Nat)
    (hok : cstring_ok s) (hcontent : cstring_content s = v ++ [0])
    (hcap : s.buf.cap ≤ 2 ^ 56) (hch : ch % 2 ^ 32 ≠ 0) :
    cstring_ok (cstring_push s ch) ∧
    cstring_content (cstring_push s ch) = (v ++ encode_utf8 ch) ++ [0] ∧
    0 ∉ encode_utf8 ch := by
  obtain ⟨hpl, hpc, hpd, hple, hptake⟩ :=
    cstring_pop_nul s v hok (by omega) (Or.inl hcontent)
  set b1 := (dynarray_pop s.buf (type_new 1)).2 with hb1
  have h1 : b1.len ≤ b1.cap := by
    rw [hpc]
    exact le_trans hple hok.1
  have hd1 : b1.data.length = b1.cap := by
    rw [hpd, hpc]
    exact hok.2
  have hbound : 2 ^ (encode_utf8 ch).length * (b1.cap + 4) ≤ 2 ^ 63 := by
    have hl4 : (encode_utf8 ch).length ≤ 4 := encode_utf8_length_le ch
    have hp : (2 : Nat) ^ (encode_utf8 ch).length ≤ 2 ^ 4 :=
      Nat.pow_le_pow_right (by norm_num) hl4
    have hc1 : b1.cap + 4 ≤ 2 ^ 56 + 4 := by
      rw [hpc]
      omega
    calc 2 ^ (encode_utf8 ch).length * (b1.cap + 4)
        ≤ 2 ^ 4 * (2 ^ 56 + 4) := Nat.mul_le_mul hp hc1
      _ ≤ 2 ^ 63 := by norm_num
  obtain ⟨fl, fok, fdl, fcap, ftake⟩ :=
    foldl_push_bytes (encode_utf8 ch) b1 h1 hd1 hbound
  set b2 := (encode_utf8 ch).foldl dynarray_push_byte b1 with hb2
  have hcap62 : b2.cap ≤ 2 ^ 62 := by
    have h16 : 2 ^ (encode_utf8 ch).length * (b1.cap + 4) ≤ 2 ^ 4 * (2 ^ 56 + 4) := by
      have hl4 : (encode_utf8 ch).length ≤ 4 := encode_utf8_length_le ch
      have hp : (2 : Nat) ^ (encode_utf8 ch).length ≤ 2 ^ 4 :=
        Nat.pow_le_pow_right (by norm_num) hl4
      have hc1 : b1.cap + 4 ≤ 2 ^ 56 + 4 := by
        rw [hpc]
        omega
      exact Nat.mul_le_mul hp hc1
    have := fcap
    have hnum : (2 : Nat) ^ 4 * (2 ^ 56 + 4) ≤ 2 ^ 62 := by norm_num
    omega
  obtain ⟨pl2, pok2, pdl2, pcap2, ptake2⟩ := dynarray_push_byte_spec b2 0 fok fdl hcap62
  refine ⟨⟨pok2, pdl2⟩, ?_, encode_utf8_ne_zero ch hch⟩
  show (dynarray_push_byte b2 0).data.take (dynarray_push_byte b2 0).len =
    (v ++ encode_utf8 ch) ++ [0]
  rw [pl2]
  have ptake3 : (dynarray_push_byte b2 0).data.take (b2.len + 1) =
      b2.data.take b2.len ++ [0] := ptake2
  have hc2 : b2.data.take b2.len = v ++ encode_utf8 ch := by
    have ftake2 : b2.data.take b2.len = b1.data.take b1.len ++ encode_utf8 ch := ftake
    rw [ftake2, hptake]
  rw [ptake3, hc2]

/-- `cstring_is`: the builder holds the bytes of the C string (up to its first
NUL) followed by the terminator. -/
theorem cstring_is_spec (cstr : List Nat) (hsz : cstr.length ≤ 2 ^ 56) :
    cstring_ok (cstring_is cstr) ∧
    cstring_content (cstring_is cstr) = cstr.takeWhile (fun b => b != 0) ++ [0] ∧
    0 ∉ cstr.takeWhile (fun b => b != 0) := by
  have hnot : 0 ∉ cstr.takeWhile (fun b => b != 0) := by
    intro hmem
    have hp := List.mem_takeWhile_imp hmem
    simp at hp
  have hlen : (cstr.takeWhile (fun b => b != 0)).length ≤ cstr.length :=
    (List.takeWhile_sublist _).length_le
  have h := cstring_extend_spec ⟨dynarray_new⟩ (cstr.takeWhile (fun b => b != 0)) []
    ⟨le_refl 0, rfl⟩ (Or.inr ⟨rfl, rfl⟩)
    (by show (0 : Nat) + _ ≤ 2 ^ 62; omega)
  have heq : cstring_is cstr =
      cstring_extend ⟨dynarray_new⟩ (cstr.takeWhile (fun b => b != 0)) := rfl
  rw [heq]
  exact ⟨h.1, by rw [h.2]; simp, hnot⟩

theorem cstring_reachable_invariant (s : cstring) (h : cstring_reachable s) :
    cstring_ok s ∧ ∃ v, cstring_content s = v ++ [0] ∧ 0 ∉ v := by
  induction h with
  | new =>
    obtain ⟨hok, hc, hn⟩ := cstring_is_spec [] (by norm_num)
    exact ⟨hok, [], by simpa using hc, by simp⟩
  | is cstr hsz =>
    obtain ⟨hok, hc, hn⟩ := cstring_is_spec cstr hsz
    exact ⟨hok, cstr.takeWhile (fun b => b != 0), hc, hn⟩
  | push s ch h hch hcap ih =>
    obtain ⟨hok, v, hv, hnv⟩ := ih
    obtain ⟨hok2, hc2, hne⟩ := cstring_push_spec s ch v hok hv hcap hch
    refine ⟨hok2, v ++ encode_utf8 ch, hc2, ?_⟩
    intro hmem
    exact (List.mem_append.mp hmem).elim (fun hq => hnv hq) (fun hq => hne hq)
  | ext s buf h hbuf hsz ih =>
    obtain ⟨hok, v, hv, hnv⟩ := ih
    obtain ⟨hok2, hc2⟩ := cstring_extend_spec s buf v hok (Or.inl hv) hsz
    refine ⟨hok2, v ++ buf, hc2, ?_⟩
    intro hmem
    exact (List.mem_append.mp hmem).elim (fun hq => hnv hq) (fun hq => hbuf hq)
  | ext_cstr s cstr h hsz ih =>
    obtain ⟨hok, v, hv, hnv⟩ := ih
    have hlen : (cstr.takeWhile (fun b => b != 0)).length ≤ cstr.length :=
      (List.takeWhile_sublist _).length_le
    obtain ⟨hok2, hc2⟩ := cstring_extend_spec s (cstr.takeWhile (fun b => b != 0)) v
      hok (Or.inl hv) (by omega)
    refine ⟨hok2, v ++ cstr.takeWhile (fun b => b != 0), hc2, ?_⟩
    intro hmem
    refine (List.mem_append.mp hmem).elim (fun hq => hnv hq) (fun hq => ?_)
    have hp := List.mem_takeWhile_imp hq
    simp at hp

/-- C8 counterexample: `cstring_push` of codepoint `U+0000` on a fresh
builder appends a NUL byte and then the terminator NUL, leaving two zero
bytes in the buffer — so "exactly one zero byte, in final position" is
false for the unrestricted operation sequences of the claim. -/
theorem c8_counterexample :
    cstring_content (cstring_push cstring_new 0) = [0, 0] ∧
    (cstring_content (cstring_push cstring_new 0)).count 0 ≠ 1 := by
  decide

/-- C8 amended: for every builder reached by cstring operations whose
pushed codepoints are nonzero and whose `cstring_extend` byte ranges
contain no zero byte (plus the no-overflow size bounds), the occupied
buffer is a NUL-free visible content followed by exactly one zero byte
in the final position. -/
theorem c8_nul_invariant (s : cstring) (h : cstring_reachable s) :
    ∃ v, cstring_content s = v ++ [0] ∧ 0 ∉ v :=
  (cstring_reachable_invariant s h).2

/-- Witness for C8: a builder made from `"ab"` and a pushed `'c'` has
content `"abc"` plus one final NUL. -/
theorem c8_nul_invariant_witness :
    ∃ v, cstring_content (cstring_push (cstring_is [97, 98]) 99) = v ++ [0] ∧ 0 ∉ v :=
  c8_nul_invariant (cstring_push (cstring_is [97, 98]) 99)
    (cstring_reachable.push (cstring_is [97, 98]) 99
      (cstring_reachable.is [97, 98] (by norm_num)) (by norm_num) (by decide))
